import Mathlib

/-!
Shallow embedding of two Mesa components covered by the specification:

* the Intel NIR lowering passes for compute and ray-tracing intrinsics
  (brw_nir_lower_cs_intrinsics.c and brw_nir_lower_rt_intrinsics.c), and
* the Lima draw-command packer (the lima_draw code found in the same
  source tree: scissor clipping, clear/draw job handling, render-state
  packing).

Machine integers are modelled as Nat with explicit reduction modulo 2^32
wherever the 32-bit hardware arithmetic can wrap.  NIR alu operations on
32-bit values are modelled as follows: nir_iadd / nir_imul reduce modulo
2^32, nir_ishl masks to 32 bits, nir_iand / nir_ior / nir_ishr are the
plain Nat bitwise operations (they cannot overflow), nir_umod / nir_udiv
are Nat mod / div.
-/

/-- The modulus of unsigned 32-bit arithmetic, 2^32. -/
def U32 : Nat := 4294967296

/-- Unsigned 32-bit addition, modelling nir_iadd on 32-bit values. -/
def iadd32 (a b : Nat) : Nat := (a + b) % U32

/-- Unsigned 32-bit multiplication, modelling nir_imul on 32-bit values. -/
def imul32 (a b : Nat) : Nat := (a * b) % U32

/-- Unsigned 32-bit left shift, modelling nir_ishl on 32-bit values. -/
def ishl32 (a s : Nat) : Nat := (a <<< s) % U32

/-- The unsigned 32-bit representation of the negative immediate -s, as
produced by nir_iadd_imm with a negative constant. -/
def ineg32 (s : Nat) : Nat := (U32 - s % U32) % U32

theorem U32_eq : U32 = 2 ^ 32 := by norm_num [U32]

/-- Bridge lemma: or-ing a value below 2 into an even value is addition. -/
theorem two_mul_lor_eq_add (a b : Nat) (hb : b < 2) : 2 * a ||| b = 2 * a + b := by
  have h := (Nat.mul_add_lt_is_or (show b < 2 ^ 1 by simpa using hb) a).symm
  simpa using h

/-- Bridge lemma: or-ing a value below 2^16 into a left-shifted value is
addition, used for the depth-range word near | (far << 16). -/
theorem lor_shl16_eq_add (lo hi : Nat) (hlo : lo < 65536) :
    lo ||| hi <<< 16 = hi * 65536 + lo := by
  have h := (Nat.mul_add_lt_is_or (show lo < 2 ^ 16 by simpa using hlo) hi).symm
  rw [Nat.lor_comm] at h
  rw [Nat.shiftLeft_eq]
  simpa [Nat.mul_comm] using h

/-- Bridge lemma: masking with the 32-bit constant 0xfffffffe clears the
low bit, i.e. rounds a 32-bit value down to a multiple of two. -/
theorem and_fffffffe_eq (a : Nat) (ha : a < U32) : a &&& 0xfffffffe = 2 * (a / 2) := by
  have hmask : ∀ i, i < 32 → Nat.testBit 0xfffffffe i = decide (1 ≤ i) := by decide
  apply Nat.eq_of_testBit_eq
  intro i
  rw [Nat.testBit_and]
  rcases Nat.lt_or_ge i 32 with hi | hi
  · rw [hmask i hi]
    rcases Nat.eq_zero_or_pos i with h0 | h1
    · subst h0
      simp [Nat.mul_mod_right]
    · have hd : decide (1 ≤ i) = true := decide_eq_true h1
      rw [hd, Bool.and_true]
      have hsucc : Nat.succ (i - 1) = i := by omega
      have key : ∀ x : Nat, Nat.testBit x i = Nat.testBit (x / 2) (i - 1) := by
        intro x
        conv_lhs => rw [← hsucc]
        exact Nat.testBit_succ x (i - 1)
      have h3 : 2 * (a / 2) / 2 = a / 2 := by omega
      rw [key (2 * (a / 2)), key a, h3]
  · have hpow : U32 ≤ 2 ^ i := by
      rw [U32_eq]
      exact Nat.pow_le_pow_right (by norm_num) hi
    have ha' : Nat.testBit a i = false :=
      Nat.testBit_lt_two_pow (lt_of_lt_of_le ha hpow)
    have hb' : Nat.testBit (2 * (a / 2)) i = false := by
      apply Nat.testBit_lt_two_pow
      have : 2 * (a / 2) ≤ a := by omega
      exact lt_of_le_of_lt this (lt_of_lt_of_le ha hpow)
    rw [ha', hb', Bool.false_and]

/-!
Compute-intrinsic lowering (brw_nir_lower_cs_intrinsics.c).

The pass replaces load_local_invocation_id / load_local_invocation_index /
load_num_subgroups by arithmetic over subgroup_id, the subgroup invocation
(lane) and the workgroup size, and narrows 64-bit workgroup-metadata loads
to 32 bits.  The value-level definitions below are the arithmetic the
emitted NIR computes, evaluated at a concrete invocation.
-/

/-- The linear position of an invocation: channel + subgroup_id * simd_width
(nir_iadd of the lane and the nir_imul thread_local_id). -/
def cs_linear (subgroup_id simd_width channel : Nat) : Nat :=
  iadd32 channel (imul32 subgroup_id simd_width)

/-- Non-quad (linear) mode local invocation id, from the udiv / umod chain:
id_x = linear umod size_x, id_y = (linear udiv size_x) umod size_y,
id_z = linear udiv (size_x imul size_y). -/
def cs_linear_local_id (local_index size_x size_y : Nat) : Nat × Nat × Nat :=
  (local_index % size_x, local_index / size_x % size_y,
   local_index / imul32 size_x size_y)

/-- Non-quad (linear) mode local invocation index: the linear position. -/
def cs_linear_local_index (linear : Nat) : Nat := linear

/-- Quad mode x coordinate from the id within a pair of rows:
nir_ior of (row_pair_id iand 1) and ((row_pair_id ishr 1) iand 0xfffffffe). -/
def cs_quad_x (row_pair_id : Nat) : Nat :=
  row_pair_id &&& 1 ||| (row_pair_id >>> 1 &&& 0xfffffffe)

/-- Quad mode y coordinate: nir_ior of (y_row_pairs ishl 1) and
((row_pair_id ishr 1) iand 1). -/
def cs_quad_y (y_row_pairs row_pair_id : Nat) : Nat :=
  ishl32 y_row_pairs 1 ||| (row_pair_id >>> 1 &&& 1)

/-- Quad mode local invocation id: with double_size_x = size_x ishl 1,
row_pair_id = linear umod double_size_x and y_row_pairs = linear udiv
double_size_x, the id is (x, y umod size_y, y udiv size_y). -/
def cs_quad_local_id (linear size_x size_y : Nat) : Nat × Nat × Nat :=
  let double_size_x := ishl32 size_x 1
  let row_pair_id := linear % double_size_x
  let y_row_pairs := linear / double_size_x
  let x := cs_quad_x row_pair_id
  let y := cs_quad_y y_row_pairs row_pair_id
  (x, y % size_y, y / size_y)

/-- Quad mode local invocation index: x iadd (y imul size_x). -/
def cs_quad_local_index (linear size_x : Nat) : Nat :=
  let double_size_x := ishl32 size_x 1
  let row_pair_id := linear % double_size_x
  let y_row_pairs := linear / double_size_x
  iadd32 (cs_quad_x row_pair_id) (imul32 (cs_quad_y y_row_pairs row_pair_id) size_x)

/-- Total workgroup invocation count used by the num_subgroups lowering:
either the compile-time C product of the three dimensions or the runtime
nir_imul chain over the loaded workgroup-size vector. -/
def cs_total_size (local_size_variable : Bool) (sx sy sz : Nat) : Nat :=
  if local_size_variable then imul32 (imul32 sx sy) sz
  else sx * sy * sz % U32

/-- The num_subgroups replacement: nir_udiv of
(size iadd simd_width) iadd_imm -1 by simd_width, the DIV_ROUND_UP
equivalent built by the pass. -/
def cs_num_subgroups (size simd_width : Nat) : Nat :=
  iadd32 (iadd32 size simd_width) (ineg32 1) / simd_width

/-- The intrinsic instructions distinguished by the switch in
lower_cs_intrinsics_convert_block; bit_size is the destination bit size.
The tag of an unhandled instruction is irrelevant to the pass. -/
inductive CSIntrinsic
  | load_local_group_size (bit_size : Nat)
  | load_work_group_id (bit_size : Nat)
  | load_num_work_groups (bit_size : Nat)
  | load_local_invocation_id (bit_size : Nat)
  | load_local_invocation_index (bit_size : Nat)
  | load_num_subgroups (bit_size : Nat)
  | unhandled (tag : Nat)
deriving DecidableEq, Repr

/-- What the switch does to one instruction: narrowed means the 64-bit
metadata load was rewritten to 32 bits and re-widened (rewrite_uses_after,
then continue without touching state.progress); lowered means the sysval
was replaced and the instruction removed (rewrite_uses, remove, and
state.progress = true); untouched means the instruction was skipped. -/
inductive CSAction
  | narrowed
  | lowered
  | untouched
deriving DecidableEq, Repr

/-- The per-instruction action of lower_cs_intrinsics_convert_block. -/
def lower_cs_instr_action : CSIntrinsic → CSAction
  | .load_local_group_size bs => if bs = 64 then .narrowed else .untouched
  | .load_work_group_id bs => if bs = 64 then .narrowed else .untouched
  | .load_num_work_groups bs => if bs = 64 then .narrowed else .untouched
  | .load_local_invocation_id _ => .lowered
  | .load_local_invocation_index _ => .lowered
  | .load_num_subgroups _ => .lowered
  | .unhandled _ => .untouched

/-- One block of lower_cs_intrinsics_convert_block: state.progress is set
exactly when an instruction reaches the bottom of the switch (the lowered
path); the narrowed path continues without setting it. -/
def lower_cs_block_progress (progress : Bool) (block : List CSIntrinsic) : Bool :=
  block.foldl (fun p i => p || decide (lower_cs_instr_action i = .lowered)) progress

/-- The progress flag returned by brw_nir_lower_cs_intrinsics: the fold of
the per-block update over all blocks of the shader, starting from false. -/
def brw_nir_lower_cs_intrinsics (blocks : List (List CSIntrinsic)) : Bool :=
  blocks.foldl lower_cs_block_progress false

/-- Number of instructions of the shader whose uses are rewritten by the
pass (both the narrowed and the lowered paths call a rewrite-uses
helper on the destination). -/
def cs_rewrite_count (blocks : List (List CSIntrinsic)) : Nat :=
  (blocks.map (fun b =>
    (b.filter (fun i => lower_cs_instr_action i ≠ .untouched)).length)).sum

/-- Number of instructions lowered through the sysval-replacement path
(the only path that sets state.progress). -/
def cs_lowered_count (blocks : List (List CSIntrinsic)) : Nat :=
  (blocks.map (fun b =>
    (b.filter (fun i => lower_cs_instr_action i = .lowered)).length)).sum

/-!
Ray-tracing-intrinsic lowering (brw_nir_lower_rt_intrinsics.c).

The pass loads the hotzone once at function entry; channel 0 of the
hotzone is the running stack_base_offset.  A btd_stack_push marker with
positive stack size stores the child offset (stack_base_offset iadd_imm
stack_size) back to the hotzone; a btd_resume marker with positive stack
size replaces stack_base_offset by stack_base_offset iadd_imm -stack_size
and stores it back.  Both markers are unconditionally removed.
-/

/-- The per-function state of the pass that the push / resume markers read
and update: the stack-offset cursor held in hotzone channel 0 and the
running SSA stack_base_offset value. -/
structure RTState where
  hotzone : Nat
  stack_base_offset : Nat
deriving DecidableEq, Repr

/-- Entry of a shader function: stack_base_offset is loaded from channel 0
of the hotzone. -/
def rt_shader_entry (hotzone : Nat) : RTState :=
  { hotzone := hotzone, stack_base_offset := hotzone }

/-- Effect of a btd_stack_push_intel marker of the given stack size: when
the size is positive, the child offset stack_base_offset + size is stored
to the hotzone; the local stack_base_offset is unchanged. -/
def rt_step_stack_push (st : RTState) (stack_size : Nat) : RTState :=
  if 0 < stack_size then
    { st with hotzone := iadd32 st.stack_base_offset stack_size }
  else st

/-- Effect of a btd_resume_intel marker of the given stack size: when the
size is positive, stack_base_offset is decreased by size (32-bit add of
the negated immediate) and stored back to the hotzone. -/
def rt_step_resume (st : RTState) (stack_size : Nat) : RTState :=
  if 0 < stack_size then
    let o := iadd32 st.stack_base_offset (ineg32 stack_size)
    { hotzone := o, stack_base_offset := o }
  else st

/-- The instructions relevant to the stack-offset bookkeeping; any other
instruction is opaque to it. -/
inductive RTInstr
  | btd_stack_push (stack_size : Nat)
  | btd_resume (stack_size : Nat)
  | other (tag : Nat)
deriving DecidableEq, Repr

/-- The marker-processing part of lower_rt_intrinsics_impl: both marker
kinds update the state and are removed (nir_instr_remove); other
instructions are kept. -/
def lower_rt_markers : RTState → List RTInstr → RTState × List RTInstr
  | st, [] => (st, [])
  | st, .btd_stack_push s :: rest => lower_rt_markers (rt_step_stack_push st s) rest
  | st, .btd_resume s :: rest => lower_rt_markers (rt_step_resume st s) rest
  | st, .other t :: rest =>
      let r := lower_rt_markers st rest
      (r.1, .other t :: r.2)

/-- The shader stages distinguished by build_leaf_is_procedural. -/
inductive RTStage
  | raygen
  | any_hit
  | closest_hit
  | miss
  | intersection
  | callable
  | compute
deriving DecidableEq, Repr

/-- build_leaf_is_procedural: any-hit shaders are always triangles,
intersection shaders always procedural, and every other stage compares the
leaf_type field of the hit record with the procedural node-type sentinel
(nir_ieq against BRW_RT_BVH_NODE_TYPE_PROCEDURAL).  The sentinel is a
constant of a header outside this repository slice, so it is kept as a
parameter. -/
def build_leaf_is_procedural (stage : RTStage) (procedural_sentinel leaf_type : Nat) :
    Bool :=
  match stage with
  | .any_hit => false
  | .intersection => true
  | _ => decide (leaf_type = procedural_sentinel)

/-!
Lima draw-command packer (the lima_draw code of the repository).

Scissor rectangles and viewport coordinates are modelled over Int: the
viewport bounds are truncated to int locals in the source, and all the
clipping logic is MAX2 / MIN2 comparisons.  The clear / draw job
bookkeeping is modelled as an event log per job; lima_job_get,
lima_do_job and lima_job_has_draw_pending live outside this repository
slice and are modelled from the spec where noted.
-/

/-- A scissor rectangle (pipe_scissor_state). -/
structure ScissorRect where
  minx : Int
  maxx : Int
  miny : Int
  maxy : Int
deriving DecidableEq, Repr

/-- lima_clip_scissor_to_viewport: start from the explicit scissor when
rasterizer scissoring is on, else the full framebuffer; clip x against
MAX2(viewport.left, 0) and MIN2(viewport.right, fb.width), collapse minx
up to maxx if it exceeds it; then the same for y. -/
def lima_clip_scissor_to_viewport (scissor_on : Bool) (scissor : ScissorRect)
    (fb_width fb_height vp_left vp_right vp_bottom vp_top : Int) : ScissorRect :=
  let c0 : ScissorRect := if scissor_on then scissor else ⟨0, fb_width, 0, fb_height⟩
  let viewport_left := max vp_left 0
  let minx0 := max c0.minx viewport_left
  let viewport_right := min vp_right fb_width
  let maxx := min c0.maxx viewport_right
  let minx := if minx0 > maxx then maxx else minx0
  let viewport_bottom := max vp_bottom 0
  let miny0 := max c0.miny viewport_bottom
  let viewport_top := min vp_top fb_height
  let maxy := min c0.maxy viewport_top
  let miny := if miny0 > maxy then maxy else miny0
  ⟨minx, maxx, miny, maxy⟩

/-- lima_is_scissor_zero: the clipped scissor is degenerate when either
axis has min equal to max. -/
def lima_is_scissor_zero (cs : ScissorRect) : Bool :=
  decide (cs.minx = cs.maxx) || decide (cs.miny = cs.maxy)

/-- Intersection of two rectangles, for the spec-side formulation. -/
def rect_intersect (a b : ScissorRect) : ScissorRect :=
  ⟨max a.minx b.minx, min a.maxx b.maxx, max a.miny b.miny, min a.maxy b.maxy⟩

/-- Spec-side formulation of the scissor clip, stated in the words of the
specification: intersect the explicit scissor rectangle (or the full
framebuffer when scissoring is disabled) with the viewport rectangle
clamped to the framebuffer bounds, then clamp the minimum up to the
maximum on any axis where it would exceed it. -/
def spec_clipped_scissor (scissor_on : Bool) (scissor : ScissorRect)
    (fb_width fb_height vp_left vp_right vp_bottom vp_top : Int) : ScissorRect :=
  let explicit : ScissorRect := if scissor_on then scissor else ⟨0, fb_width, 0, fb_height⟩
  let vp_clamped := rect_intersect ⟨vp_left, vp_right, vp_bottom, vp_top⟩
      ⟨0, fb_width, 0, fb_height⟩
  let r := rect_intersect explicit vp_clamped
  ⟨min r.minx r.maxx, r.maxx, min r.miny r.maxy, r.maxy⟩

/-- The two job-visible operations of the packer front end. -/
inductive JobEvent
  | draw
  | clear
deriving DecidableEq, Repr

/-- A GPU job, abstracted to the ordered log of draw and clear operations
whose state it accumulated. -/
structure LimaJob where
  events : List JobEvent
deriving DecidableEq, Repr

/-- Modelled from the spec: lima_job_has_draw_pending is declared outside
this repository slice; per the spec a clear flushes the current job
exactly when that job already has a pending draw, so the predicate holds
when the job log contains a draw. -/
def lima_job_has_draw_pending (job : LimaJob) : Bool :=
  job.events.any (fun e => decide (e = JobEvent.draw))

/-- The job state of the context: the current job (lima_job_get fetches
it, creating a fresh one right after a submission) and the jobs already
submitted, in order. -/
structure LimaCtxJobs where
  current : LimaJob
  submitted : List LimaJob
deriving DecidableEq, Repr

/-- lima_clear job handling: if the current job already has a draw
pending, submit it (lima_do_job, modelled from the spec as moving the job
to the submitted list) and fetch a fresh job; then record the clear
bookkeeping in the resulting current job. -/
def lima_clear_jobstep (s : LimaCtxJobs) : LimaCtxJobs :=
  if lima_job_has_draw_pending s.current then
    { current := ⟨[.clear]⟩, submitted := s.submitted ++ [s.current] }
  else
    { s with current := ⟨s.current.events ++ [.clear]⟩ }

/-- A successful draw records its commands in the current job without any
flush on this path. -/
def lima_draw_jobstep (s : LimaCtxJobs) : LimaCtxJobs :=
  { s with current := ⟨s.current.events ++ [.draw]⟩ }

/-- Run a sequence of draw and clear calls against the job state. -/
def lima_run_ops (s : LimaCtxJobs) : List JobEvent → LimaCtxJobs
  | [] => s
  | .draw :: rest => lima_run_ops (lima_draw_jobstep s) rest
  | .clear :: rest => lima_run_ops (lima_clear_jobstep s) rest

/-- A job log in which no clear is recorded after a draw. -/
def no_clear_after_draw : List JobEvent → Bool
  | [] => true
  | .clear :: rest => no_clear_after_draw rest
  | .draw :: rest => rest.all (fun e => decide (e = .draw))

/-- All jobs of the context, current and submitted, respect
no_clear_after_draw. -/
def ctx_jobs_ok (s : LimaCtxJobs) : Bool :=
  no_clear_after_draw s.current.events &&
    s.submitted.all (fun j => no_clear_after_draw j.events)

/-- The inputs of one lima_draw_vbo call that decide whether the draw is
skipped: the external u_trim_pipe_prim check, the bound shader programs,
the scissor/viewport/framebuffer state, and the external
lima_update_fs_state / lima_update_vs_state results. -/
structure LimaDrawCall where
  trim_ok : Bool
  bind_vs : Bool
  bind_fs : Bool
  scissor_on : Bool
  scissor : ScissorRect
  fb_width : Int
  fb_height : Int
  vp_left : Int
  vp_right : Int
  vp_bottom : Int
  vp_top : Int
  fs_state_ok : Bool
  vs_state_ok : Bool
deriving DecidableEq, Repr

/-- How one lima_draw_vbo call ended. -/
inductive DrawOutcome
  | rejected_mismatch
  | skipped_no_shader
  | skipped_scissor
  | skipped_state
  | drawn
deriving DecidableEq, Repr

/-- The early-return structure of lima_draw_vbo for a single draw: reject
on draw-mode/count mismatch, skip when no fragment or vertex program is
bound, skip when the clipped scissor is degenerate, skip when compiling
the shader state fails, otherwise emit the draw commands into the current
job.  The second component is the list of events added to the job. -/
def lima_draw_vbo_one (c : LimaDrawCall) : DrawOutcome × List JobEvent :=
  if ¬ c.trim_ok then (.rejected_mismatch, [])
  else if ¬ c.bind_fs ∨ ¬ c.bind_vs then (.skipped_no_shader, [])
  else
    let cs := lima_clip_scissor_to_viewport c.scissor_on c.scissor c.fb_width
        c.fb_height c.vp_left c.vp_right c.vp_bottom c.vp_top
    if lima_is_scissor_zero cs then (.skipped_scissor, [])
    else if ¬ c.fs_state_ok ∨ ¬ c.vs_state_ok then (.skipped_state, [])
    else (.drawn, [JobEvent.draw])

/-- The num_draws loop of lima_draw_vbo: every draw of the batch is
processed by its own call; a skipped draw never aborts the batch. -/
def lima_draw_vbo_multi : List LimaDrawCall → List (DrawOutcome × List JobEvent)
  | [] => []
  | c :: rest => lima_draw_vbo_one c :: lima_draw_vbo_multi rest

/-- lima_pack_render_state depth-range word, taking the already converted
16-bit near and far values (float_to_ushort is an external helper): when
far equals near and near is nonzero, near is decremented, then the word
is near | (far << 16). -/
def lima_depth_range_word (near far : Nat) : Nat :=
  let near2 := if far = near ∧ near ≠ 0 then near - 1 else near
  near2 ||| far <<< 16

/-!
Theorems for the claims.
-/

/-- Claim C2: a btd_stack_push of size S > 0 stores the child offset
c + S to the hotzone; a btd_resume of size S in the resumed shader
subtracts S from the loaded offset and stores it back; a push of size S
followed by the corresponding resume restores the hotzone stack-offset
cursor to its pre-push value c; and both marker instructions are removed
by the pass. -/
theorem rt_push_resume_roundtrip (c S : Nat) (hS : 0 < S) (hcS : c + S < U32) :
    (rt_step_stack_push (rt_shader_entry c) S).hotzone = c + S ∧
    (∀ L, L < U32 → S ≤ L →
      (rt_step_resume (rt_shader_entry L) S).hotzone = L - S) ∧
    (rt_step_resume
      (rt_shader_entry (rt_step_stack_push (rt_shader_entry c) S).hotzone)
      S).hotzone = c ∧
    (∀ st : RTState, (lower_rt_markers st [RTInstr.btd_stack_push S]).2 = [] ∧
      (lower_rt_markers st [RTInstr.btd_resume S]).2 = []) := by
  simp only [U32] at hcS
  refine ⟨?_, ?_, ?_, ?_⟩
  · simp only [rt_step_stack_push, rt_shader_entry, hS, if_pos, iadd32, U32]
    omega
  · intro L hL hSL
    simp only [U32] at hL
    simp only [rt_step_resume, rt_shader_entry, hS, if_pos, iadd32, ineg32, U32]
    omega
  · simp only [rt_step_stack_push, rt_step_resume, rt_shader_entry, hS, if_pos,
      iadd32, ineg32, U32]
    omega
  · intro st
    exact ⟨rfl, rfl⟩

/-- Witness for C2 at hotzone cursor 100 and stack size 32. -/
theorem rt_push_resume_roundtrip_witness :
    (rt_step_resume
      (rt_shader_entry (rt_step_stack_push (rt_shader_entry 100) 32).hotzone)
      32).hotzone = 100 :=
  (rt_push_resume_roundtrip 100 32 (by norm_num) (by norm_num [U32])).2.2.1

/-- Claim C5: the num_subgroups replacement is the integer ceiling of the
total invocation count over the subgroup width, computed as
(size + width - 1) / width in unsigned 32-bit arithmetic, for both the
compile-time-constant and runtime-loaded workgroup-size products. -/
theorem cs_num_subgroups_is_ceil (lsv : Bool) (sx sy sz simd_width : Nat)
    (hw : 0 < simd_width) (hb : sx * sy * sz + simd_width ≤ U32) :
    cs_num_subgroups (cs_total_size lsv sx sy sz) simd_width
      = (sx * sy * sz + simd_width - 1) / simd_width ∧
    (∀ n, (sx * sy * sz + simd_width - 1) / simd_width ≤ n ↔
      sx * sy * sz ≤ n * simd_width) := by
  simp only [U32] at hb
  have hsize : cs_total_size lsv sx sy sz = sx * sy * sz := by
    cases lsv with
    | false =>
        simp only [cs_total_size, Bool.false_eq_true, if_false, U32]
        exact Nat.mod_eq_of_lt (by omega)
    | true =>
        simp only [cs_total_size, if_true, imul32, U32]
        rcases Nat.eq_zero_or_pos sz with hz | hz
        · subst hz
          simp
        · have hxy : sx * sy ≤ sx * sy * sz := Nat.le_mul_of_pos_right _ hz
          have h1 : sx * sy % 4294967296 = sx * sy := Nat.mod_eq_of_lt (by omega)
          rw [h1, Nat.mod_eq_of_lt (by omega)]
  constructor
  · rw [hsize]
    simp only [cs_num_subgroups, iadd32, ineg32, U32]
    exact congrArg (fun x => x / simd_width) (by omega)
  · intro n
    have hq := Nat.div_add_mod (sx * sy * sz + simd_width - 1) simd_width
    have hr := Nat.mod_lt (sx * sy * sz + simd_width - 1) hw
    have hc : n * simd_width = simd_width * n := Nat.mul_comm _ _
    constructor
    · intro h
      have hm := Nat.mul_le_mul_left simd_width h
      omega
    · intro h
      by_contra hcon
      have hn1 : n + 1 ≤ (sx * sy * sz + simd_width - 1) / simd_width := by omega
      have hm := Nat.mul_le_mul_left simd_width hn1
      have hms : simd_width * (n + 1) = simd_width * n + simd_width :=
        Nat.mul_succ _ _
      omega

/-- Witness for C5: total invocation count 70 with subgroup width 16
yields 5 subgroups. -/
theorem cs_num_subgroups_is_ceil_witness :
    cs_num_subgroups (cs_total_size false 70 1 1) 16 = 5 := by
  have h := (cs_num_subgroups_is_ceil false 70 1 1 16 (by norm_num)
    (by norm_num [U32])).1
  simpa using h

/-- Claim C6: whether the hit leaf is procedural is determined per shader
stage: constantly false in an any-hit shader, constantly true in an
intersection shader, and in every other stage the comparison of the hit
record leaf-type field with the procedural node-type sentinel. -/
theorem build_leaf_is_procedural_per_stage (sentinel leaf_type : Nat) :
    build_leaf_is_procedural RTStage.any_hit sentinel leaf_type = false ∧
    build_leaf_is_procedural RTStage.intersection sentinel leaf_type = true ∧
    (∀ stage : RTStage, stage ≠ RTStage.any_hit → stage ≠ RTStage.intersection →
      build_leaf_is_procedural stage sentinel leaf_type
        = decide (leaf_type = sentinel)) := by
  refine ⟨rfl, rfl, ?_⟩
  intro stage h1 h2
  cases stage <;> first | rfl | exact absurd rfl h1 | exact absurd rfl h2

/-- Witness for C6 at a closest-hit stage with matching leaf type. -/
theorem build_leaf_is_procedural_per_stage_witness :
    build_leaf_is_procedural RTStage.closest_hit 3 3 = true := by
  have h := (build_leaf_is_procedural_per_stage 3 3).2.2 RTStage.closest_hit
    (by decide) (by decide)
  simpa using h

/-- Helper: one block folds progress to the disjunction with whether the
block contains an instruction taking the sysval-replacement path. -/
theorem lower_cs_block_progress_eq (b : List CSIntrinsic) (p : Bool) :
    lower_cs_block_progress p b
      = (p || decide (0 < (b.filter
          (fun i => lower_cs_instr_action i = CSAction.lowered)).length)) := by
  induction b generalizing p with
  | nil => simp [lower_cs_block_progress]
  | cons i t ih =>
      by_cases h : lower_cs_instr_action i = CSAction.lowered
      · simp only [lower_cs_block_progress, List.foldl_cons] at *
        rw [ih]
        simp [h, List.filter_cons]
      · simp only [lower_cs_block_progress, List.foldl_cons] at *
        rw [ih]
        simp [h, List.filter_cons]

/-- Helper: the returned progress flag is the disjunction over all blocks,
i.e. it is true exactly when some instruction took the sysval path. -/
theorem brw_cs_progress_eq (blocks : List (List CSIntrinsic)) (p : Bool) :
    blocks.foldl lower_cs_block_progress p
      = (p || decide (0 < cs_lowered_count blocks)) := by
  induction blocks generalizing p with
  | nil => simp [cs_lowered_count]
  | cons b bs ih =>
      rw [List.foldl_cons, ih, lower_cs_block_progress_eq]
      have hcount : cs_lowered_count (b :: bs)
          = (b.filter (fun i => lower_cs_instr_action i = CSAction.lowered)).length
            + cs_lowered_count bs := by
        simp [cs_lowered_count]
      rw [hcount, Bool.or_assoc]
      by_cases h1 : 0 < (b.filter
          (fun i => lower_cs_instr_action i = CSAction.lowered)).length
      · by_cases h2 : 0 < cs_lowered_count bs <;> simp [h1, h2]
      · by_cases h2 : 0 < cs_lowered_count bs <;> simp [h1, h2]

/-- Helper: every sysval-lowered instruction is also counted as a
rewritten instruction. -/
theorem cs_lowered_le_rewrite (blocks : List (List CSIntrinsic)) :
    cs_lowered_count blocks ≤ cs_rewrite_count blocks := by
  induction blocks with
  | nil => simp [cs_lowered_count, cs_rewrite_count]
  | cons b bs ih =>
      have hblock : (b.filter
            (fun i => lower_cs_instr_action i = CSAction.lowered)).length
          ≤ (b.filter
            (fun i => lower_cs_instr_action i ≠ CSAction.untouched)).length := by
        rw [← List.countP_eq_length_filter, ← List.countP_eq_length_filter]
        apply List.countP_mono_left
        intro x hx hpx
        simp only [decide_eq_true_eq] at hpx ⊢
        rw [hpx]
        decide
      simp only [cs_lowered_count, cs_rewrite_count, List.map_cons, List.sum_cons] at *
      omega

/-- Counterexample to claim C3: a shader whose only handled intrinsic is a
64-bit load_work_group_id is rewritten (the narrowing path rewrites its
uses), yet brw_nir_lower_cs_intrinsics returns false. -/
theorem brw_cs_progress_counterexample :
    brw_nir_lower_cs_intrinsics [[CSIntrinsic.load_work_group_id 64]] = false ∧
    0 < cs_rewrite_count [[CSIntrinsic.load_work_group_id 64]] := by
  constructor
  · rfl
  · decide

/-- Amended claim C3: the progress flag is true exactly when at least one
intrinsic was lowered through the sysval-replacement path
(local_invocation_id, local_invocation_index or num_subgroups); the
64-bit narrowing path rewrites uses but does not set the flag, and
whenever the flag is true at least one rewrite did occur. -/
theorem brw_cs_progress_iff_lowered (blocks : List (List CSIntrinsic)) :
    (brw_nir_lower_cs_intrinsics blocks = true ↔ 0 < cs_lowered_count blocks) ∧
    (brw_nir_lower_cs_intrinsics blocks = true → 0 < cs_rewrite_count blocks) := by
  have h : brw_nir_lower_cs_intrinsics blocks
      = decide (0 < cs_lowered_count blocks) := by
    unfold brw_nir_lower_cs_intrinsics
    rw [brw_cs_progress_eq blocks false, Bool.false_or]
  have hle := cs_lowered_le_rewrite blocks
  rw [h]
  constructor
  · simp
  · intro hp
    simp only [decide_eq_true_eq] at hp
    omega

/-- Witness for the amended C3: a shader with one load_num_subgroups sets
the progress flag. -/
theorem brw_cs_progress_iff_lowered_witness :
    brw_nir_lower_cs_intrinsics [[CSIntrinsic.load_num_subgroups 32]] = true :=
  (brw_cs_progress_iff_lowered [[CSIntrinsic.load_num_subgroups 32]]).1.mpr
    (by decide)

/-- Counterexample to claim C10: with a converted near value of 5 and a
converted far value of 3 (a reversed depth range), the packed near value
is not strictly less than the packed far value although the two values do
not both convert to zero. -/
theorem lima_depth_range_counterexample :
    lima_depth_range_word 5 3 % 65536 = 5 ∧
    lima_depth_range_word 5 3 / 65536 = 3 ∧
    ¬ lima_depth_range_word 5 3 % 65536 < lima_depth_range_word 5 3 / 65536 := by
  refine ⟨?_, ?_, ?_⟩ <;> decide

/-- Amended claim C10: the depth_range word is near | (far << 16) with
near decremented when the converted values are equal and nonzero, and the
packed near value is strictly less than the packed far value whenever the
converted near value does not exceed the converted far value, unless both
convert to zero. -/
theorem lima_depth_range_encoding (near far : Nat) (hn : near < 65536)
    (_hfr : far < 65536) :
    lima_depth_range_word near far
      = far * 65536 + (if far = near ∧ near ≠ 0 then near - 1 else near) ∧
    (near ≤ far → ¬ (near = 0 ∧ far = 0) →
      lima_depth_range_word near far % 65536
        < lima_depth_range_word near far / 65536) := by
  have henc : lima_depth_range_word near far
      = far * 65536 + (if far = near ∧ near ≠ 0 then near - 1 else near) := by
    unfold lima_depth_range_word
    exact lor_shl16_eq_add _ _ (by split_ifs <;> omega)
  refine ⟨henc, ?_⟩
  intro hle hnz
  rw [henc]
  have hlt : (if far = near ∧ near ≠ 0 then near - 1 else near) < 65536 := by
    split_ifs <;> omega
  rw [Nat.mul_comm far 65536]
  rw [Nat.mul_add_mod, Nat.mod_eq_of_lt hlt, Nat.mul_add_div (by norm_num),
    Nat.div_eq_of_lt hlt]
  split_ifs with h
  · omega
  · by_cases hfn : far = near
    · have hnear0 : near = 0 := by
        by_contra hne
        exact h ⟨hfn, hne⟩
      exact absurd ⟨hnear0, by omega⟩ hnz
    · omega

/-- Witness for the amended C10 at equal nonzero converted values 5, 5:
the packed near 4 is strictly below the packed far 5. -/
theorem lima_depth_range_encoding_witness :
    lima_depth_range_word 5 5 % 65536 < lima_depth_range_word 5 5 / 65536 :=
  (lima_depth_range_encoding 5 5 (by norm_num) (by norm_num)).2 (by norm_num)
    (by decide)

/-- Claim C7: the clipped scissor equals the intersection of the explicit
scissor rectangle (or the full framebuffer when scissoring is disabled)
with the viewport rectangle clamped to the framebuffer bounds, with the
minimum collapsed up to the maximum on any axis where it would exceed it;
in particular viewport (left 0, right 100, bottom 0, top 50) with scissor
(10, 90, 10, 60) on a 640x480 framebuffer yields (10, 90, 10, 50). -/
theorem lima_scissor_clip_matches_spec :
    (∀ (so : Bool) (sc : ScissorRect) (fbW fbH vl vr vb vt : Int),
      lima_clip_scissor_to_viewport so sc fbW fbH vl vr vb vt
        = spec_clipped_scissor so sc fbW fbH vl vr vb vt) ∧
    lima_clip_scissor_to_viewport true ⟨10, 90, 10, 60⟩ 640 480 0 100 0 50
      = ⟨10, 90, 10, 50⟩ := by
  have hkey : ∀ a b : Int, (if a > b then b else a) = min a b := by
    intro a b
    split_ifs with h
    · exact (min_eq_right (le_of_lt h)).symm
    · exact (min_eq_left (le_of_not_lt h)).symm
  constructor
  · intro so sc fbW fbH vl vr vb vt
    cases so <;>
      simp only [lima_clip_scissor_to_viewport, spec_clipped_scissor, rect_intersect,
        Bool.false_eq_true, if_false, if_true, ite_true, ite_false,
        ScissorRect.mk.injEq, hkey]
  · decide

/-- Helper: appending a draw to a job log keeps clears before draws. -/
theorem no_clear_after_draw_append_draw (l : List JobEvent)
    (h : no_clear_after_draw l = true) :
    no_clear_after_draw (l ++ [JobEvent.draw]) = true := by
  induction l with
  | nil => rfl
  | cons e t ih =>
      cases e with
      | clear =>
          simp only [no_clear_after_draw, List.cons_append] at h ⊢
          exact ih h
      | draw =>
          simp only [no_clear_after_draw, List.cons_append, List.all_append] at h ⊢
          simp [h]

/-- Helper: appending a clear to a job log without draws keeps clears
before draws. -/
theorem no_clear_after_draw_append_clear (l : List JobEvent)
    (h : l.any (fun e => decide (e = JobEvent.draw)) = false) :
    no_clear_after_draw (l ++ [JobEvent.clear]) = true := by
  induction l with
  | nil => rfl
  | cons e t ih =>
      cases e with
      | clear =>
          simp only [List.any_cons, Bool.or_eq_false_iff] at h
          simp only [no_clear_after_draw, List.cons_append]
          exact ih h.2
      | draw =>
          simp at h

/-- Claim C8: a clear call on a job with a pending draw submits that job
first and records the clear in a fresh job; with no pending draw the same
job is reused, so consecutive clears with no intervening draw coalesce
into one job; and across any sequence of draw and clear calls no job ever
has clear state recorded after a draw. -/
theorem lima_clear_flush_invariant :
    (∀ s : LimaCtxJobs, lima_job_has_draw_pending s.current = true →
      lima_clear_jobstep s
        = ⟨⟨[JobEvent.clear]⟩, s.submitted ++ [s.current]⟩) ∧
    (∀ s : LimaCtxJobs, lima_job_has_draw_pending s.current = false →
      lima_clear_jobstep s
        = ⟨⟨s.current.events ++ [JobEvent.clear]⟩, s.submitted⟩) ∧
    (∀ s : LimaCtxJobs, lima_job_has_draw_pending s.current = false →
      (lima_run_ops s [JobEvent.clear, JobEvent.clear]).current.events
          = s.current.events ++ [JobEvent.clear] ++ [JobEvent.clear] ∧
      (lima_run_ops s [JobEvent.clear, JobEvent.clear]).submitted
          = s.submitted) ∧
    (∀ (ops : List JobEvent) (s : LimaCtxJobs), ctx_jobs_ok s = true →
      ctx_jobs_ok (lima_run_ops s ops) = true) := by
  have hpend : ∀ s : LimaCtxJobs, lima_job_has_draw_pending s.current = true →
      lima_clear_jobstep s
        = ⟨⟨[JobEvent.clear]⟩, s.submitted ++ [s.current]⟩ := by
    intro s h
    unfold lima_clear_jobstep
    rw [h]
    simp
  have hnopend : ∀ s : LimaCtxJobs, lima_job_has_draw_pending s.current = false →
      lima_clear_jobstep s
        = ⟨⟨s.current.events ++ [JobEvent.clear]⟩, s.submitted⟩ := by
    intro s h
    unfold lima_clear_jobstep
    rw [h]
    simp
  have hnodraw : ∀ l : List JobEvent,
      l.any (fun e => decide (e = JobEvent.draw)) = false →
      (l ++ [JobEvent.clear]).any (fun e => decide (e = JobEvent.draw)) = false := by
    intro l h
    simp only [List.any_append, h, Bool.false_or, List.any_cons, List.any_nil]
    simp
  refine ⟨hpend, hnopend, ?_, ?_⟩
  · intro s h
    have h1 := hnopend s h
    have h2 : lima_job_has_draw_pending (lima_clear_jobstep s).current = false := by
      rw [h1]
      exact hnodraw s.current.events h
    have h3 := hnopend _ h2
    simp only [lima_run_ops, h1, h3]
    rw [h1] at h3
    simp only [lima_run_ops] at *
    rw [h3]
    simp
  · intro ops
    induction ops with
    | nil => intro s h; exact h
    | cons op rest ih =>
        intro s h
        cases op with
        | draw =>
            apply ih
            unfold ctx_jobs_ok at h ⊢
            simp only [lima_draw_jobstep]
            simp only [Bool.and_eq_true] at h ⊢
            exact ⟨no_clear_after_draw_append_draw _ h.1, h.2⟩
        | clear =>
            apply ih
            by_cases hp : lima_job_has_draw_pending s.current = true
            · rw [hpend s hp]
              unfold ctx_jobs_ok at h ⊢
              simp only [Bool.and_eq_true, List.all_append, List.all_cons,
                List.all_nil] at h ⊢
              refine ⟨rfl, h.2, ?_⟩
              simp [h.1]
            · have hp2 : lima_job_has_draw_pending s.current = false :=
                Bool.eq_false_iff.mpr hp
              rw [hnopend s hp2]
              have hp3 : s.current.events.any
                  (fun e => decide (e = JobEvent.draw)) = false := hp2
              unfold ctx_jobs_ok at h ⊢
              simp only [Bool.and_eq_true] at h ⊢
              exact ⟨no_clear_after_draw_append_clear _ hp3, h.2⟩

/-- Witness for C8: a clear on a job holding one draw submits that job
and opens a fresh job holding only the clear. -/
theorem lima_clear_flush_invariant_witness :
    lima_clear_jobstep ⟨⟨[JobEvent.draw]⟩, []⟩
      = ⟨⟨[JobEvent.clear]⟩, [⟨[JobEvent.draw]⟩]⟩ := by
  have h := lima_clear_flush_invariant.1 ⟨⟨[JobEvent.draw]⟩, []⟩ (by decide)
  simpa using h

/-- Claim C9: a draw with no bound vertex or fragment shader, or whose
clipped scissor is degenerate, returns without emitting commands or
touching the current job, and the num_draws loop processes every draw of
a batch independently, so a skipped draw never aborts the batch. -/
theorem lima_draw_skip_semantics :
    (∀ c : LimaDrawCall, c.trim_ok = true →
      (c.bind_fs = false ∨ c.bind_vs = false) →
      lima_draw_vbo_one c = (DrawOutcome.skipped_no_shader, [])) ∧
    (∀ c : LimaDrawCall, c.trim_ok = true → c.bind_fs = true →
      c.bind_vs = true →
      lima_is_scissor_zero (lima_clip_scissor_to_viewport c.scissor_on
        c.scissor c.fb_width c.fb_height c.vp_left c.vp_right c.vp_bottom
        c.vp_top) = true →
      lima_draw_vbo_one c = (DrawOutcome.skipped_scissor, [])) ∧
    (∀ batch : List LimaDrawCall,
      lima_draw_vbo_multi batch = batch.map lima_draw_vbo_one) ∧
    lima_draw_vbo_multi
      [⟨true, false, true, true, ⟨10, 90, 10, 60⟩, 640, 480, 0, 100, 0, 50,
        true, true⟩,
       ⟨true, true, true, true, ⟨10, 90, 10, 60⟩, 640, 480, 0, 100, 0, 50,
        true, true⟩]
      = [(DrawOutcome.skipped_no_shader, []),
         (DrawOutcome.drawn, [JobEvent.draw])] := by
  refine ⟨?_, ?_, ?_, ?_⟩
  · intro c htrim hsh
    unfold lima_draw_vbo_one
    rcases hsh with h | h <;> simp [htrim, h]
  · intro c htrim hfs hvs hz
    unfold lima_draw_vbo_one
    simp [htrim, hfs, hvs, hz]
  · intro batch
    induction batch with
    | nil => rfl
    | cons c t ih => simp [lima_draw_vbo_multi, ih]
  · decide

/-- Witness for C9: a draw with no bound vertex shader is skipped with no
job events emitted. -/
theorem lima_draw_skip_semantics_witness :
    lima_draw_vbo_one
      ⟨true, false, true, true, ⟨10, 90, 10, 60⟩, 640, 480, 0, 100, 0, 50,
        true, true⟩
      = (DrawOutcome.skipped_no_shader, []) :=
  lima_draw_skip_semantics.1 _ rfl (Or.inr rfl)

/-- Claim C4: in non-quad (linear) mode the replacement values satisfy
local_index = subgroup_id * subgroup_width + lane, id.x = index mod
size.x, id.y = (index / size.x) mod size.y and id.z = index /
(size.x * size.y) with no final mod on z. -/
theorem cs_linear_mode_mapping (subgroup_id simd_width channel sx sy : Nat)
    (hb : subgroup_id * simd_width + channel < U32) (hxy : sx * sy < U32) :
    cs_linear_local_index (cs_linear subgroup_id simd_width channel)
      = subgroup_id * simd_width + channel ∧
    cs_linear_local_id (cs_linear subgroup_id simd_width channel) sx sy
      = ((subgroup_id * simd_width + channel) % sx,
         (subgroup_id * simd_width + channel) / sx % sy,
         (subgroup_id * simd_width + channel) / (sx * sy)) := by
  simp only [U32] at hb hxy
  have hlin : cs_linear subgroup_id simd_width channel
      = subgroup_id * simd_width + channel := by
    simp only [cs_linear, iadd32, imul32, U32]
    omega
  refine ⟨hlin, ?_⟩
  simp only [cs_linear_local_id, cs_linear_local_index, hlin, imul32, U32]
  rw [Nat.mod_eq_of_lt hxy]

/-- Witness for C4: workgroup size (4, 4, 1), subgroup width 8, linear
position 5 of subgroup 0 yields id (1, 1, 0) and index 5. -/
theorem cs_linear_mode_mapping_witness :
    cs_linear_local_index (cs_linear 0 8 5) = 5 ∧
    cs_linear_local_id (cs_linear 0 8 5) 4 4 = (1, 1, 0) := by
  have h := cs_linear_mode_mapping 0 8 5 4 4 (by norm_num [U32])
    (by norm_num [U32])
  constructor
  · rw [h.1]
  · rw [h.2]

/-- Helper: the quad x bit manipulation computes 2 * (r / 4) + r % 2. -/
theorem cs_quad_x_eq (r : Nat) (hr : r < U32) :
    cs_quad_x r = 2 * (r / 4) + r % 2 := by
  unfold cs_quad_x
  rw [Nat.and_one_is_mod]
  have h1 : r >>> 1 = r / 2 := by
    rw [Nat.shiftRight_eq_div_pow]
  rw [h1, and_fffffffe_eq (r / 2) (by simp only [U32] at hr ⊢; omega)]
  rw [Nat.lor_comm]
  rw [two_mul_lor_eq_add _ _ (Nat.mod_lt r (by norm_num))]
  have h2 : r / 2 / 2 = r / 4 := by omega
  rw [h2]

/-- Helper: the quad y bit manipulation computes 2 * y_row_pairs plus the
second bit of the row-pair id. -/
theorem cs_quad_y_eq (yrp r : Nat) (hy : 2 * yrp < U32) :
    cs_quad_y yrp r = 2 * yrp + r / 2 % 2 := by
  unfold cs_quad_y ishl32
  have h1 : r >>> 1 = r / 2 := by
    rw [Nat.shiftRight_eq_div_pow]
  have h2 : yrp <<< 1 % U32 = 2 * yrp := by
    rw [Nat.shiftLeft_eq, pow_one]
    simp only [U32] at hy ⊢
    omega
  rw [h1, h2, Nat.and_one_is_mod]
  exact two_mul_lor_eq_add _ _ (Nat.mod_lt _ (by norm_num))

/-- Helper: mod and div of 2 * Y + t by an even positive sy, for t < 2. -/
theorem two_mul_add_mod_even (Y t sy : Nat) (hsy : 0 < sy) (hey : sy % 2 = 0)
    (ht : t < 2) :
    (2 * Y + t) % sy = 2 * (Y % (sy / 2)) + t ∧
    (2 * Y + t) / sy = Y / (sy / 2) := by
  obtain ⟨s, rfl⟩ : ∃ s, sy = 2 * s := ⟨sy / 2, by omega⟩
  have hs : 0 < s := by omega
  have hYd : s * (Y / s) + Y % s = Y := Nat.div_add_mod Y s
  have hYm : Y % s < s := Nat.mod_lt _ hs
  have hs2 : 2 * s / 2 = s := by omega
  have heq : 2 * Y + t = 2 * s * (Y / s) + (2 * (Y % s) + t) := by
    have h2 : 2 * s * (Y / s) = 2 * (s * (Y / s)) := by ring
    omega
  rw [hs2]
  constructor
  · rw [heq, Nat.mul_add_mod, Nat.mod_eq_of_lt (by omega)]
  · rw [heq, Nat.mul_add_div (show 0 < 2 * s by omega),
      Nat.div_eq_of_lt (show 2 * (Y % s) + t < 2 * s by omega), Nat.add_zero]

/-- Helper: the division algorithm for a quad group 4k .. 4k+3 against an
even pair-of-rows width 2 * sx: all four positions share the same row
pair, their in-pair offsets are consecutive, and the base offset is a
multiple of four. -/
theorem cs_quad_div_mod (sx k j : Nat) (hsx : 0 < sx) (hex : sx % 2 = 0)
    (hj : j < 4) :
    (4 * k + j) % (2 * sx) = 4 * k % (2 * sx) + j ∧
    (4 * k + j) / (2 * sx) = 4 * k / (2 * sx) ∧
    4 * k % (2 * sx) % 4 = 0 := by
  have hE : 0 < 2 * sx := by omega
  have h0 : 2 * sx * (4 * k / (2 * sx)) + 4 * k % (2 * sx) = 4 * k :=
    Nat.div_add_mod (4 * k) (2 * sx)
  have hRE : 4 * k % (2 * sx) < 2 * sx := Nat.mod_lt _ hE
  have hP4 : 2 * sx * (4 * k / (2 * sx)) % 4 = 0 := by
    rw [Nat.mul_mod]
    have h4 : 2 * sx % 4 = 0 := by omega
    rw [h4]
    simp
  have hR4 : 4 * k % (2 * sx) % 4 = 0 := by omega
  have hlt : 4 * k % (2 * sx) + j < 2 * sx := by omega
  have heq : 4 * k + j
      = 2 * sx * (4 * k / (2 * sx)) + (4 * k % (2 * sx) + j) := by omega
  refine ⟨?_, ?_, hR4⟩
  · rw [heq, Nat.mul_add_mod, Nat.mod_eq_of_lt hlt]
  · rw [heq, Nat.mul_add_div hE, Nat.div_eq_of_lt hlt, Nat.add_zero]

/-- Helper: closed form of the quad-mode id and index at linear position
4k + j for j < 4, in a workgroup with even positive x and y sizes. -/
theorem cs_quad_eval (sx sy k j : Nat) (hsx : 0 < sx) (hsy : 0 < sy)
    (hex : sx % 2 = 0) (hey : sy % 2 = 0) (hj : j < 4)
    (hb : 4 * k + 3 + 3 * sx < U32) :
    cs_quad_local_id (4 * k + j) sx sy
      = (2 * (4 * k % (2 * sx) / 4) + j % 2,
         2 * (4 * k / (2 * sx) % (sy / 2)) + j / 2,
         4 * k / (2 * sx) / (sy / 2)) ∧
    cs_quad_local_index (4 * k + j) sx
      = 2 * (4 * k % (2 * sx) / 4) + j % 2
        + (2 * (4 * k / (2 * sx)) + j / 2) * sx := by
  obtain ⟨hmod, hdiv, hR4⟩ := cs_quad_div_mod sx k j hsx hex hj
  have hE : 0 < 2 * sx := by omega
  have hRE : 4 * k % (2 * sx) < 2 * sx := Nat.mod_lt _ hE
  have hshl : ishl32 sx 1 = 2 * sx := by
    unfold ishl32
    rw [Nat.shiftLeft_eq, pow_one]
    simp only [U32] at hb ⊢
    omega
  have hEY : 2 * sx * (4 * k / (2 * sx)) ≤ 4 * k := by
    have h0 := Nat.div_add_mod (4 * k) (2 * sx)
    omega
  have hYk : 4 * k / (2 * sx) ≤ k := by
    by_contra hc
    push_neg at hc
    have h4 : 4 ≤ 2 * sx := by omega
    have hm := Nat.mul_le_mul h4 hc
    omega
  have hylt : 2 * (4 * k / (2 * sx)) < U32 := by
    simp only [U32] at hb ⊢
    omega
  have hx := cs_quad_x_eq (4 * k % (2 * sx) + j)
    (by simp only [U32] at hb ⊢; omega)
  have hy := cs_quad_y_eq (4 * k / (2 * sx)) (4 * k % (2 * sx) + j) hylt
  have htj : (4 * k % (2 * sx) + j) / 2 % 2 = j / 2 := by omega
  have hxj : (4 * k % (2 * sx) + j) / 4 = 4 * k % (2 * sx) / 4 := by omega
  have hmj : (4 * k % (2 * sx) + j) % 2 = j % 2 := by omega
  have hmodev := two_mul_add_mod_even (4 * k / (2 * sx)) (j / 2) sy hsy hey
    (by omega)
  constructor
  · simp only [cs_quad_local_id, hshl, hmod, hdiv, hx, hy, htj, hxj, hmj]
    rw [hmodev.1, hmodev.2]
  · simp only [cs_quad_local_index, hshl, hmod, hdiv, hx, hy, htj, hxj, hmj]
    have hyx : (2 * (4 * k / (2 * sx)) + j / 2) * sx ≤ 4 * k + sx := by
      have hexp : (2 * (4 * k / (2 * sx)) + j / 2) * sx
          = 2 * sx * (4 * k / (2 * sx)) + j / 2 * sx := by ring
      have hj2 : j / 2 * sx ≤ 1 * sx := Nat.mul_le_mul_right sx (by omega)
      omega
    have hxb : 2 * (4 * k % (2 * sx) / 4) + j % 2 < 2 * sx := by omega
    simp only [iadd32, imul32, U32]
    simp only [U32] at hb
    omega

/-- Claim C1: in 2x2 quad derivative-group mode with even workgroup x and
y dimensions, the replacement id is (x, y mod size.y, y / size.y) and the
replacement local_index is x + y * size.x, where x and y are the bit
manipulations of linear mod (2 * size.x) and linear / (2 * size.x); and
any four invocations at linear positions 4k .. 4k+3 occupy the four cells
of one 2x2 quad, sharing id.x / 2 and id.y / 2. -/
theorem brw_cs_quad_invocation_mapping (sx sy k : Nat) (hsx : 0 < sx)
    (hsy : 0 < sy) (hex : sx % 2 = 0) (hey : sy % 2 = 0)
    (hb : 4 * k + 3 + 3 * sx < U32) :
    (∀ j, j < 4 →
      cs_quad_local_id (4 * k + j) sx sy
        = ((4 * k + j) % (2 * sx) % 2
             + 2 * ((4 * k + j) % (2 * sx) / 2 / 2),
           (2 * ((4 * k + j) / (2 * sx))
             + (4 * k + j) % (2 * sx) / 2 % 2) % sy,
           (2 * ((4 * k + j) / (2 * sx))
             + (4 * k + j) % (2 * sx) / 2 % 2) / sy) ∧
      cs_quad_local_index (4 * k + j) sx
        = (4 * k + j) % (2 * sx) % 2
            + 2 * ((4 * k + j) % (2 * sx) / 2 / 2)
            + (2 * ((4 * k + j) / (2 * sx))
               + (4 * k + j) % (2 * sx) / 2 % 2) * sx) ∧
    (∀ j, j < 4 →
      (cs_quad_local_id (4 * k + j) sx sy).1 / 2
          = (cs_quad_local_id (4 * k) sx sy).1 / 2 ∧
      (cs_quad_local_id (4 * k + j) sx sy).2.1 / 2
          = (cs_quad_local_id (4 * k) sx sy).2.1 / 2) ∧
    (∃ a b, a % 2 = 0 ∧ b % 2 = 0 ∧
      ((cs_quad_local_id (4 * k) sx sy).1,
        (cs_quad_local_id (4 * k) sx sy).2.1) = (a, b) ∧
      ((cs_quad_local_id (4 * k + 1) sx sy).1,
        (cs_quad_local_id (4 * k + 1) sx sy).2.1) = (a + 1, b) ∧
      ((cs_quad_local_id (4 * k + 2) sx sy).1,
        (cs_quad_local_id (4 * k + 2) sx sy).2.1) = (a, b + 1) ∧
      ((cs_quad_local_id (4 * k + 3) sx sy).1,
        (cs_quad_local_id (4 * k + 3) sx sy).2.1) = (a + 1, b + 1)) := by
  have he0 := cs_quad_eval sx sy k 0 hsx hsy hex hey (by norm_num) hb
  have he1 := cs_quad_eval sx sy k 1 hsx hsy hex hey (by norm_num) hb
  have he2 := cs_quad_eval sx sy k 2 hsx hsy hex hey (by norm_num) hb
  have he3 := cs_quad_eval sx sy k 3 hsx hsy hex hey (by norm_num) hb
  rw [Nat.add_zero] at he0
  refine ⟨?_, ?_, ?_⟩
  · intro j hj
    obtain ⟨hmod, hdiv, hR4⟩ := cs_quad_div_mod sx k j hsx hex hj
    obtain ⟨hid, hidx⟩ := cs_quad_eval sx sy k j hsx hsy hex hey hj hb
    have hmt := two_mul_add_mod_even (4 * k / (2 * sx)) (j / 2) sy hsy hey
      (by omega)
    have ht : (4 * k % (2 * sx) + j) / 2 % 2 = j / 2 := by omega
    have hc1 : (4 * k % (2 * sx) + j) % 2
          + 2 * ((4 * k % (2 * sx) + j) / 2 / 2)
        = 2 * (4 * k % (2 * sx) / 4) + j % 2 := by omega
    refine ⟨?_, ?_⟩
    · rw [hid, hmod, hdiv, ht, hmt.1, hmt.2, hc1]
    · rw [hidx, hmod, hdiv, ht]
      omega
  · intro j hj
    obtain ⟨hmod, hdiv, hR4⟩ := cs_quad_div_mod sx k j hsx hex hj
    obtain ⟨hid, hidx⟩ := cs_quad_eval sx sy k j hsx hsy hex hey hj hb
    rw [hid, he0.1]
    dsimp only
    constructor
    · omega
    · omega
  · refine ⟨2 * (4 * k % (2 * sx) / 4), 2 * (4 * k / (2 * sx) % (sy / 2)),
      by omega, by omega, ?_, ?_, ?_, ?_⟩
    · rw [he0.1]
      refine Prod.ext ?_ ?_ <;> (dsimp only; omega)
    · rw [he1.1]
      refine Prod.ext ?_ ?_ <;> dsimp only <;> omega
    · rw [he2.1]
      refine Prod.ext ?_ ?_ <;> dsimp only <;> omega
    · rw [he3.1]

/-- Witness for C1 at workgroup size (4, 2), quad group k = 3: linear
positions 12 and 13 share id.x / 2 and id.y / 2. -/
theorem brw_cs_quad_invocation_mapping_witness :
    (cs_quad_local_id 13 4 2).1 / 2 = (cs_quad_local_id 12 4 2).1 / 2 ∧
    (cs_quad_local_id 13 4 2).2.1 / 2 = (cs_quad_local_id 12 4 2).2.1 / 2 := by
  have h := (brw_cs_quad_invocation_mapping 4 2 3 (by norm_num) (by norm_num)
    (by norm_num) (by norm_num) (by norm_num [U32])).2.1 1 (by norm_num)
  simpa using h
